import Mathlib

/-!
Verification development for the semantic-find core: a shallow embedding of
the text chunker (`src/content/text-chunker.ts`), the similarity ranker
(`src/shared/similarity.ts`) and the highlighter (`src/content/highlighter.ts`,
re-exported through the content layer), together with proofs of the
specification's claims about them.

Strings are modelled as `List Char` (the code works on JavaScript strings
character-wise).  JavaScript numbers used as sizes/offsets are modelled as
`Nat`/`Int`; embedding vectors use `ℝ` because the similarity code computes
real square roots.  Fallible code is modelled with `Except`/`Option`.
-/

namespace SemanticFind

/-! ## Character and string utilities

`isJsWhitespace` models the character class `\s` used by the source's
regular expressions (`/\s/`, `/\s+/g`) and by `String.prototype.trim`,
restricted to the whitespace characters that actually occur in documents:
ASCII whitespace and the no-break space. -/

def isJsWhitespace (c : Char) : Bool :=
  c = ' ' ∨ c = '\t' ∨ c = '\n' ∨ c = '\r' ∨ c = '\x0b' ∨ c = '\x0c' ∨ c = ' '

/-- JavaScript `text.trim()`: drop leading and trailing whitespace. -/
def trimChars (l : List Char) : List Char :=
  ((l.dropWhile isJsWhitespace).reverse.dropWhile isJsWhitespace).reverse

/-- Worker for `collapseWs`: the `Bool` flag records whether the previous
character was whitespace (so that a whitespace run contributes a single
space).  Models `replace(/\s+/g, ' ')`. -/
def collapseWsGo : Bool → List Char → List Char
  | _, [] => []
  | prevWs, c :: rest =>
    if isJsWhitespace c then
      if prevWs then collapseWsGo true rest else ' ' :: collapseWsGo true rest
    else
      c :: collapseWsGo false rest

/-- JavaScript `text.replace(/\s+/g, ' ')`. -/
def collapseWs (l : List Char) : List Char := collapseWsGo false l

/-- `normalizeText` from `highlighter.ts`:
`text.toLowerCase().replace(/\s+/g, ' ').trim()`. -/
def normalizeText (l : List Char) : List Char :=
  trimChars (collapseWs (l.map Char.toLower))

/-- JavaScript `words.join(' ')`. -/
def joinSp : List (List Char) → List Char
  | [] => []
  | [t] => t
  | t :: ts => t ++ ' ' :: joinSp ts

theorem length_dropWhile_le (p : Char → Bool) (l : List Char) :
    (l.dropWhile p).length ≤ l.length := by
  induction l with
  | nil => simp [List.dropWhile]
  | cons c rest ih =>
    simp only [List.dropWhile]
    split
    · exact Nat.le_succ_of_le ih
    · simp

/-- JavaScript `text.split(/\s+/)`: split on maximal whitespace runs
(leading/trailing runs produce empty fragments, as in JavaScript). -/
def splitWs : List Char → List (List Char)
  | [] => [[]]
  | c :: rest =>
    if isJsWhitespace c then
      [] :: splitWs (rest.dropWhile isJsWhitespace)
    else
      match splitWs rest with
      | [] => [[c]]
      | w :: ws => (c :: w) :: ws
termination_by l => l.length
decreasing_by
  · simp only [List.length_cons]
    exact Nat.lt_succ_of_le (length_dropWhile_le _ _)
  · simp

/-- `getFirstWords` from `highlighter.ts`:
`text.split(/\s+/).slice(0, count).join(' ')`. -/
def getFirstWords (text : List Char) (count : Nat) : List Char :=
  joinSp ((splitWs text).take count)

/-- Boolean list-prefix test (JavaScript substring matching helper). -/
def isPrefixList : List Char → List Char → Bool
  | [], _ => true
  | _ :: _, [] => false
  | c :: cs, d :: ds => c = d && isPrefixList cs ds

/-- Boolean substring test: does `pat` occur contiguously in the second list? -/
def isInfixList (pat : List Char) : List Char → Bool
  | [] => isPrefixList pat []
  | c :: t => isPrefixList pat (c :: t) || isInfixList pat t

/-- JavaScript `hay.indexOf(pat)`, returning `none` for `-1`. -/
def indexOfSub (pat : List Char) : List Char → Option Nat
  | [] => if isPrefixList pat [] then some 0 else none
  | c :: t =>
    if isPrefixList pat (c :: t) then some 0
    else (indexOfSub pat t).map (· + 1)

/-! ## Chunker (`src/content/text-chunker.ts`) -/

/-- A `TextNode` fragment produced by the extractor.  The source interface
also carries `node`, a live DOM back-reference used only for lookup; it is
irrelevant to (and omitted from) the chunking algorithm. -/
structure TextNode where
  text : List Char
  startOffset : Nat
deriving DecidableEq, Repr

/-- A chunk produced by `chunkText`.  The source's `id` field is produced by
`generateChunkId()` from the wall clock (`Date.now()`) plus a process
counter; it is impure, not derived from the inputs, and unused by every
claim, so it is omitted here. -/
structure TextChunk where
  text : List Char
  startOffset : Nat
  endOffset : Nat
deriving DecidableEq, Repr

/-- The loop of `chunkText`, with the mutable loop state
(`currentChunkText`, `currentChunkStart`, `lastOffset`) made explicit.
The first branch mirrors `currentChunkText.length > 0 &&
currentChunkText.length + text.length > targetSize` (finalize the open
chunk, then restart from the current fragment); the second mirrors the
append step `currentChunkText += (currentChunkText.length > 0 ? ' ' : '') +
text`.  The base case mirrors the trailing `if (currentChunkText.trim().length > 0)`
push after the loop. -/
def chunkCore (targetSize : Int) :
    List TextNode → List Char → Nat → Nat → List TextChunk
  | [], cur, curStart, lastOffset =>
    if 0 < (trimChars cur).length then [⟨trimChars cur, curStart, lastOffset⟩] else []
  | tn :: rest, cur, curStart, lastOffset =>
    if 0 < cur.length ∧ targetSize < (cur.length : Int) + (tn.text.length : Int) then
      ⟨trimChars cur, curStart, lastOffset⟩ ::
        chunkCore targetSize rest tn.text tn.startOffset (tn.startOffset + tn.text.length)
    else
      chunkCore targetSize rest
        (cur ++ (if 0 < cur.length then [' '] else []) ++ tn.text)
        (if cur.length = 0 then tn.startOffset else curStart)
        (tn.startOffset + tn.text.length)

/-- `chunkText(textNodes, targetSize = 200)` from `text-chunker.ts`. -/
def chunkText (textNodes : List TextNode) (targetSize : Int := 200) : List TextChunk :=
  chunkCore targetSize textNodes [] 0 0

/-! ## Document model

The highlighter and the extractor both walk the DOM's text nodes.  A text
node is modelled by its character content plus the data those walks consult:
the chain of ancestor elements (nearest parent first) and whether the node
lies inside the extractor's preferred main-content root when one exists. -/

structure ElementModel where
  tagName : String
  role : Option String
  className : String
  id : String
  display : String
  visibility : String
deriving DecidableEq, Repr

structure DomTextNode where
  text : List Char
  ancestors : List ElementModel
  inMainContent : Bool
deriving DecidableEq, Repr

/-- A document: its text nodes in document order, and whether
`document.querySelector('main, article, ...')` finds a main-content root. -/
structure DocModel where
  nodes : List DomTextNode
  hasMainContent : Bool
deriving DecidableEq, Repr

/-! ### Extractor eligibility (`text-chunker.ts`) -/

/-- `SKIP_TAGS` from `text-chunker.ts`. -/
def SKIP_TAGS : List String :=
  ["SCRIPT", "STYLE", "NOSCRIPT", "IFRAME", "OBJECT", "EMBED",
   "SVG", "CANVAS", "VIDEO", "AUDIO", "MAP", "TEMPLATE",
   "NAV", "HEADER", "FOOTER", "ASIDE"]

/-- `SKIP_PATTERNS` from `text-chunker.ts`: each `/xxx/i` regex is a
case-insensitive literal substring test. -/
def SKIP_PATTERNS : List (List Char) :=
  ["nav".data, "menu".data, "sidebar".data, "footer".data, "header".data,
   "breadcrumb".data, "advertisement".data, "social".data, "share".data,
   "comment".data, "related".data, "recommend".data, "popular".data,
   "widget".data, "banner".data, "promo".data, "sponsor".data]

/-- Case-insensitive substring test, modelling `/pat/i.test(hay)` for a
literal pattern. -/
def containsCI (hay pat : List Char) : Bool :=
  isInfixList (pat.map Char.toLower) (hay.map Char.toLower)

/-- The role check in `shouldSkipElement`. -/
def roleIsSkipped (role : Option String) : Bool :=
  match role with
  | none => false
  | some r => ["navigation", "banner", "contentinfo", "complementary"].contains r

/-- The `while (current && depth < 5)` walk of `shouldSkipElement`. -/
def shouldSkipGo : List ElementModel → Nat → Bool
  | [], _ => false
  | e :: rest, depth =>
    if 5 ≤ depth then false
    else if SKIP_TAGS.contains e.tagName then true
    else if roleIsSkipped e.role then true
    else if SKIP_PATTERNS.any (fun pat => containsCI (e.className.data ++ ' ' :: e.id.data) pat) then true
    else shouldSkipGo rest (depth + 1)

/-- `shouldSkipElement(element)` from `text-chunker.ts`, applied to an
element given by its ancestor chain (the element itself first). -/
def shouldSkipElement (chain : List ElementModel) : Bool :=
  shouldSkipGo chain 0

/-- Whether `extractPageText` accepts a text node: the node must be inside
the search root (`mainContent || document.body`), its parent must exist and
be rendered, `shouldSkipElement(parent)` must fail, and the trimmed text
must be non-empty and at least 3 characters long. -/
def extractorAcceptsNode (hasMainContent : Bool) (n : DomTextNode) : Bool :=
  (!hasMainContent || n.inMainContent) &&
  (match n.ancestors with
   | [] => false
   | parent :: _ =>
     !(parent.display = "none" || parent.visibility = "hidden") &&
     !(shouldSkipElement n.ancestors) &&
     !((trimChars n.text).isEmpty) &&
     decide (3 ≤ (trimChars n.text).length))

/-! ### Highlighter location algorithm (`highlighter.ts`) -/

/-- The `acceptNode` filter of `findRangeForText`'s TreeWalker: the parent
must exist, be rendered, and not be one of SCRIPT/STYLE/NOSCRIPT/TEMPLATE. -/
def locatorAcceptsNode (n : DomTextNode) : Bool :=
  match n.ancestors with
  | [] => false
  | parent :: _ =>
    !(parent.display = "none" || parent.visibility = "hidden") &&
    !(["SCRIPT", "STYLE", "NOSCRIPT", "TEMPLATE"].contains parent.tagName)

/-- Whether a node contributes to the locator's flattened string: it must
pass the TreeWalker filter and the collection loop's
`nodeText.trim().length === 0` skip. -/
def locatorCollectsNode (n : DomTextNode) : Bool :=
  locatorAcceptsNode n && !((trimChars n.text).isEmpty)

/-- The texts collected by `findRangeForText`'s walk, in document order. -/
def collectTexts (doc : DocModel) : List (List Char) :=
  (doc.nodes.filter locatorCollectsNode).map DomTextNode.text

/-- `mapNormalizedToActual`'s loop; `i` counts consumed characters,
`normIndex` and `inWhitespace` are the source's mutable locals.  The
`normalizedPos ≤ normIndex` test is the loop-top early return; the final
case returns `text.length` (all characters consumed). -/
def mapNormalizedToActualGo (normalizedPos : Nat) :
    List Char → Nat → Nat → Bool → Nat
  | [], i, _, _ => i
  | c :: rest, i, normIndex, inWhitespace =>
    if normalizedPos ≤ normIndex then i
    else if isJsWhitespace c then
      if inWhitespace then mapNormalizedToActualGo normalizedPos rest (i + 1) normIndex true
      else mapNormalizedToActualGo normalizedPos rest (i + 1) (normIndex + 1) true
    else mapNormalizedToActualGo normalizedPos rest (i + 1) (normIndex + 1) false

/-- `mapNormalizedToActual(text, normalizedPos)` from `highlighter.ts`. -/
def mapNormalizedToActual (text : List Char) (normalizedPos : Nat) : Nat :=
  mapNormalizedToActualGo normalizedPos text 0 0 false

/-- A located range: start/end text node (identified by its content) with
character offsets, modelling the DOM `Range` produced by `findRangeForText`. -/
structure RangeModel where
  startText : List Char
  startOffset : Nat
  endText : List Char
  endOffset : Nat
deriving DecidableEq, Repr

/-- The mapping loop of `findRangeForText` that converts the normalized
match interval `[matchIndex, matchEnd)` back to node/offset coordinates.
`startAcc` carries the already-found start node and offset, if any. -/
def mapBackGo (matchIndex matchEnd : Nat) :
    List (List Char) → Nat → Option (List Char × Nat) → Option RangeModel
  | [], _, _ => none
  | text :: rest, normalizedPos, startAcc =>
    let nodeStartNorm := normalizedPos
    let nodeEndNorm := normalizedPos + (normalizeText text).length
    let startAcc' :=
      if startAcc = none ∧ nodeStartNorm ≤ matchIndex ∧ matchIndex < nodeEndNorm then
        some (text, mapNormalizedToActual text (matchIndex - nodeStartNorm))
      else startAcc
    match startAcc' with
    | some (st, so) =>
      if nodeStartNorm < matchEnd ∧ matchEnd ≤ nodeEndNorm then
        some ⟨st, so, text, mapNormalizedToActual text (matchEnd - nodeStartNorm)⟩
      else if matchEnd = nodeEndNorm then
        some ⟨st, so, text, text.length⟩
      else mapBackGo matchIndex matchEnd rest (nodeEndNorm + 1) startAcc'
    | none => mapBackGo matchIndex matchEnd rest (nodeEndNorm + 1) none

/-- `findRangeForText(searchText)` from `highlighter.ts`: flatten the
collected texts (each followed by a space), normalize, search, and map the
match back to node coordinates.  The final `Math.min` clamps mirror
`range.setStart(startNode, Math.min(startOffset, startNode.length))` and
the corresponding `setEnd`. -/
def findRangeForText (doc : DocModel) (searchText : List Char) : Option RangeModel :=
  let collected := collectTexts doc
  let fullText := collected.foldl (fun acc t => acc ++ t ++ [' ']) []
  let normalizedFull := normalizeText fullText
  match indexOfSub searchText normalizedFull with
  | none => none
  | some matchIndex =>
    match mapBackGo matchIndex (matchIndex + searchText.length) collected 0 none with
    | none => none
    | some r =>
      some ⟨r.startText, min r.startOffset r.startText.length,
            r.endText, min r.endOffset r.endText.length⟩

/-- The strategy loop of `findTextRanges`: skip empty/short strategies, and
stop at the first strategy whose range is found. -/
def tryStrategies (doc : DocModel) : List (List Char) → List RangeModel
  | [] => []
  | s :: rest =>
    if s.length < 3 then tryStrategies doc rest
    else
      match findRangeForText doc s with
      | some r => [r]
      | none => tryStrategies doc rest

/-- `findTextRanges(searchText)` from `highlighter.ts`. -/
def findTextRanges (doc : DocModel) (searchText : List Char) : List RangeModel :=
  let normalizedSearch := normalizeText searchText
  if normalizedSearch.length < 3 then []
  else
    tryStrategies doc
      [normalizedSearch,
       normalizedSearch.take (min 100 normalizedSearch.length),
       normalizedSearch.take (min 60 normalizedSearch.length),
       normalizedSearch.take (min 40 normalizedSearch.length),
       getFirstWords normalizedSearch 8,
       getFirstWords normalizedSearch 5,
       getFirstWords normalizedSearch 3]

/-! ## Highlighter registry state (`highlighter.ts`)

The module-level mutable state (`highlightedChunks : Map<string, Range[]>`
and `activeHighlightId : string | null`) is made an explicit state record.
The JavaScript `Map` is modelled as an insertion-ordered association list
with unique keys, with `Map.delete`, `Map.set` and `Map.get` counterparts.

The source's `highlightText` has two rendering backends, selected by the
platform constant `supportsHighlightAPI`.  The CSS-Custom-Highlight-API
backend is deterministic over the document model and is given as the
function `highlightText` below; `updateHighlights` only rewrites the
derived `CSS.highlights` entries, reproduced as the functions
`renderedPlainRanges` / `renderedActiveRanges` of the state.  The
DOM-wrapping fallback backend (`highlightTextFallback`) additionally
mutates the live tree with `Range.surroundContents`, whose success depends
on the rendered DOM; its result is therefore given as the relation
`FallbackResult`, with the location call and every registry transition
exact and only the wrap outcome left relational.  The full two-backend
function is the relation `HighlightTextResult`. -/

structure HighlighterState where
  highlightedChunks : List (String × List RangeModel)
  activeHighlightId : Option String
deriving DecidableEq, Repr

def emptyHighlighter : HighlighterState := ⟨[], none⟩

/-- `Map.delete(k)`: remove the entry with key `k` (if any). -/
def mapDelete (m : List (String × List RangeModel)) (k : String) :
    List (String × List RangeModel) :=
  m.filter (fun p => p.1 ≠ k)

/-- `Map.set(k, v)`: replace in place if the key exists, else append. -/
def mapSet (m : List (String × List RangeModel)) (k : String)
    (v : List RangeModel) : List (String × List RangeModel) :=
  if m.any (fun p => p.1 = k) then
    m.map (fun p => if p.1 = k then (k, v) else p)
  else m ++ [(k, v)]

/-- `Map.get(k)`. -/
def mapGet (m : List (String × List RangeModel)) (k : String) :
    Option (List RangeModel) :=
  (m.find? (fun p => p.1 = k)).map Prod.snd

/-- `removeHighlight(chunkId)`: delete the entry and clear the active
marker if it pointed at `chunkId`. -/
def removeHighlight (st : HighlighterState) (chunkId : String) : HighlighterState :=
  { highlightedChunks := mapDelete st.highlightedChunks chunkId,
    activeHighlightId :=
      if st.activeHighlightId = some chunkId then none else st.activeHighlightId }

/-- The `supportsHighlightAPI = true` arm of `highlightText(chunkId,
searchText)`: first remove any existing highlight for the chunk, then
locate the text with `findTextRanges`; on failure return `false` (leaving
the state as `removeHighlight` left it), on success register the ranges
and return `true`.  The document is passed explicitly since the location
algorithm re-reads the live DOM on every call.  The source function's
other arm (`!supportsHighlightAPI`, taken before this one) is modelled by
`FallbackResult`/`HighlightTextResult` below. -/
def highlightText (doc : DocModel) (st : HighlighterState)
    (chunkId : String) (searchText : List Char) : Bool × HighlighterState :=
  let st1 := removeHighlight st chunkId
  let ranges := findTextRanges doc searchText
  if ranges = [] then (false, st1)
  else (true, { st1 with highlightedChunks := mapSet st1.highlightedChunks chunkId ranges })

/-- `setActiveHighlight(chunkId)`: the source assigns
`activeHighlightId = chunkId` unconditionally (the registry entries are
untouched; the subsequent scrolling does not change this state). -/
def setActiveHighlight (st : HighlighterState) (chunkId : String) : HighlighterState :=
  { st with activeHighlightId := some chunkId }

/-- `clearAllHighlights()`. -/
def clearAllHighlights (_st : HighlighterState) : HighlighterState :=
  ⟨[], none⟩

/-- `getHighlightCount()`: `highlightedChunks.size`. -/
def getHighlightCount (st : HighlighterState) : Nat :=
  st.highlightedChunks.length

/-- The ranges `updateHighlights` renders with the active style: those of
the entry whose key equals `activeHighlightId`. -/
def renderedActiveRanges (st : HighlighterState) : List RangeModel :=
  ((st.highlightedChunks.filter (fun p => some p.1 = st.activeHighlightId)).map Prod.snd).flatten

/-- The ranges `updateHighlights` renders with the plain style. -/
def renderedPlainRanges (st : HighlighterState) : List RangeModel :=
  ((st.highlightedChunks.filter (fun p => some p.1 ≠ st.activeHighlightId)).map Prod.snd).flatten

/-- `highlightTextFallback(chunkId, searchText)` (the `!supportsHighlightAPI`
backend), run from the state `st1` that `removeHighlight(chunkId)` left.
It calls `findRangeForText(normalizeText(searchText))` directly — with no
3-character guard and no multi-strategy loop.  If no range is found it
returns `false` with no registration.  Otherwise it wraps the matched raw
text in marker `span`s via `Range.surroundContents` — one wrap for a
single-container range, or one per covered text node when the match spans
an element boundary — and on any successful wrap registers the non-empty
list of wrapped ranges under `chunkId` and returns `true`; if wrapping
fails entirely (every `surroundContents` throws, or none yields a
non-empty sub-range) it returns `false` with no registration.  Which wraps
succeed depends on the live mutating DOM, so the `wrapped` case quantifies
over the registered non-empty range list (for a single-container range the
source registers exactly `[r]`); the location call and the registry
transitions are exact. -/
inductive FallbackResult (doc : DocModel) (st1 : HighlighterState)
    (chunkId : String) (searchText : List Char) :
    Bool × HighlighterState → Prop
  | noRange (h : findRangeForText doc (normalizeText searchText) = none) :
      FallbackResult doc st1 chunkId searchText (false, st1)
  | wrapped (r : RangeModel) (ranges : List RangeModel)
      (hr : findRangeForText doc (normalizeText searchText) = some r)
      (hne : ranges ≠ []) :
      FallbackResult doc st1 chunkId searchText
        (true, { st1 with
          highlightedChunks := mapSet st1.highlightedChunks chunkId ranges })
  | wrapFailed (r : RangeModel)
      (hr : findRangeForText doc (normalizeText searchText) = some r) :
      FallbackResult doc st1 chunkId searchText (false, st1)

/-- The source's full `highlightText(chunkId, searchText)`: after the
upfront `removeHighlight(chunkId)` it branches on `supportsHighlightAPI` —
the API backend is the deterministic function `highlightText` above, the
DOM-wrapping backend is `FallbackResult` run from the removed state. -/
inductive HighlightTextResult (supportsHighlightAPI : Bool) (doc : DocModel)
    (st : HighlighterState) (chunkId : String) (searchText : List Char) :
    Bool × HighlighterState → Prop
  | api (h : supportsHighlightAPI = true) :
      HighlightTextResult supportsHighlightAPI doc st chunkId searchText
        (highlightText doc st chunkId searchText)
  | fallback (h : supportsHighlightAPI = false) (out : Bool × HighlighterState)
      (hres : FallbackResult doc (removeHighlight st chunkId) chunkId searchText out) :
      HighlightTextResult supportsHighlightAPI doc st chunkId searchText out

/-- One public highlighter operation, as a step relation between states.
`highlightText` may observe an arbitrary current document. -/
inductive HighlighterStep : HighlighterState → HighlighterState → Prop
  | highlight (st : HighlighterState) (doc : DocModel) (chunkId : String)
      (searchText : List Char) :
      HighlighterStep st (highlightText doc st chunkId searchText).2
  | remove (st : HighlighterState) (chunkId : String) :
      HighlighterStep st (removeHighlight st chunkId)
  | setActive (st : HighlighterState) (chunkId : String) :
      HighlighterStep st (setActiveHighlight st chunkId)
  | clearAll (st : HighlighterState) :
      HighlighterStep st (clearAllHighlights st)

/-- States reachable from the pristine module state by public operations. -/
def ReachableState (st : HighlighterState) : Prop :=
  Relation.ReflTransGen HighlighterStep emptyHighlighter st

/-- Like `HighlighterStep`, but `setActiveHighlight` is only invoked on
chunk ids currently present in the registry. -/
inductive HighlighterStepKnown : HighlighterState → HighlighterState → Prop
  | highlight (st : HighlighterState) (doc : DocModel) (chunkId : String)
      (searchText : List Char) :
      HighlighterStepKnown st (highlightText doc st chunkId searchText).2
  | remove (st : HighlighterState) (chunkId : String) :
      HighlighterStepKnown st (removeHighlight st chunkId)
  | setActive (st : HighlighterState) (chunkId : String)
      (h : mapGet st.highlightedChunks chunkId ≠ none) :
      HighlighterStepKnown st (setActiveHighlight st chunkId)
  | clearAll (st : HighlighterState) :
      HighlighterStepKnown st (clearAllHighlights st)

/-- Reachability when `setActiveHighlight` is only used on known ids. -/
def ReachableStateKnown (st : HighlighterState) : Prop :=
  Relation.ReflTransGen HighlighterStepKnown emptyHighlighter st

/-- The spec's registry invariant: the active id, when set, has an entry. -/
def ActiveHasEntry (st : HighlighterState) : Prop :=
  ∀ id0 : String, st.activeHighlightId = some id0 →
    mapGet st.highlightedChunks id0 ≠ none

/-! ## Ranker (`src/shared/similarity.ts`)

Embedding vectors are JavaScript float arrays; they are modelled over `ℝ`
(the code takes real square roots, so these definitions are noncomputable).
`Array.prototype.sort` with the comparator `(a, b) => b.score - a.score` is
required by the language specification to be a stable sort into
non-increasing score order; it is modelled by a stable insertion sort. -/

noncomputable section Ranker

open Classical

/-- `cosineSimilarity(a, b)` from `similarity.ts`: throws on mismatched
lengths; otherwise accumulates the dot product and the squared norms in one
pass, takes square roots, returns `0` if either norm is `0`, else the
normalized dot product. -/
def cosineSimilarity (a b : List ℝ) : Except String ℝ :=
  if a.length ≠ b.length then .error "Vectors must have the same length"
  else
    let dotProduct := (List.zipWith (fun x y => x * y) a b).sum
    let normA := Real.sqrt ((a.map fun x => x * x).sum)
    let normB := Real.sqrt ((b.map fun x => x * x).sum)
    if normA = 0 ∨ normB = 0 then .ok 0
    else .ok (dotProduct / (normA * normB))

/-- An `{index, score}` entry of `findTopKSimilar`'s result. -/
structure Scored where
  index : Nat
  score : ℝ

/-- A chunk as seen by `findTopKSimilar`: an object exposing `embedding`
(the other fields are irrelevant to the ranking). -/
structure RankChunk where
  embedding : List ℝ

/-- `chunks.map((chunk, index) => ({index, score: cosineSimilarity(...)}))`,
with the exception of the first failing element propagated (JavaScript
`map` evaluates in order and the first throw aborts the call). -/
def computeScores (queryEmbedding : List ℝ) :
    List RankChunk → Nat → Except String (List Scored)
  | [], _ => .ok []
  | c :: rest, index =>
    match cosineSimilarity queryEmbedding c.embedding with
    | .error e => .error e
    | .ok s =>
      match computeScores queryEmbedding rest (index + 1) with
      | .error e => .error e
      | .ok tail => .ok (⟨index, s⟩ :: tail)

/-- Stable insertion into a list sorted by non-increasing score: `x` goes
in front of the first element whose score is `≤ x.score`, i.e. after every
strictly greater score and before earlier-equal scores' successors. -/
def sortInsert (x : Scored) : List Scored → List Scored
  | [] => [x]
  | y :: ys => if y.score ≤ x.score then x :: y :: ys else y :: sortInsert x ys

/-- Stable sort by non-increasing score, modelling
`.sort((a, b) => b.score - a.score)`. -/
def sortByScoreDesc : List Scored → List Scored
  | [] => []
  | x :: xs => sortInsert x (sortByScoreDesc xs)

/-- The filter predicate `(item) => item.score >= threshold`. -/
def passesThreshold (threshold : ℝ) (item : Scored) : Bool :=
  decide (threshold ≤ item.score)

/-- `findTopKSimilar(queryEmbedding, chunks, k, threshold = 0)` from
`similarity.ts`: score every chunk, filter to `score >= threshold`, sort
descending by score, and `slice(0, k)`. -/
def findTopKSimilar (queryEmbedding : List ℝ) (chunks : List RankChunk)
    (k : Nat) (threshold : ℝ := 0) : Except String (List Scored) :=
  match computeScores queryEmbedding chunks 0 with
  | .error e => .error e
  | .ok scores =>
    .ok ((sortByScoreDesc (scores.filter (passesThreshold threshold))).take k)

end Ranker

/-- The tie-breaking relation verified for `findTopKSimilar`'s output:
entries with equal scores keep ascending original indices. -/
def StableR (a b : Scored) : Prop := a.score = b.score → a.index < b.index

/-- A text with no leading or trailing whitespace character (the hypothesis
shape of the chunker join/no-split theorem: fragment texts come from
`node.textContent.trim()` calls in the extractor). -/
def noEdgeWs (t : List Char) : Bool :=
  !(t.head?.any isJsWhitespace) && !(t.getLast?.any isJsWhitespace)

/-! ## Concrete fixtures used by the example-level theorems -/

def exParagraphElement : ElementModel := ⟨"P", none, "", "", "block", "visible"⟩

def exNavElement : ElementModel := ⟨"NAV", none, "", "", "block", "visible"⟩

def exContentNode : DomTextNode := ⟨"hello world".data, [exParagraphElement], true⟩

def exNavNode : DomTextNode := ⟨"hello world".data, [exNavElement], true⟩

def exDoc : DocModel := ⟨[exContentNode], false⟩

def exHighlighted : HighlighterState :=
  (highlightText exDoc emptyHighlighter "chunk-1" "hello world".data).2

def exActive : HighlighterState := setActiveHighlight exHighlighted "chunk-1"

def exRange : RangeModel := ⟨"hello world".data, 0, "hello world".data, 11⟩

def exRangeHe : RangeModel := ⟨"hello world".data, 0, "hello world".data, 2⟩

def exFallbackState : HighlighterState := ⟨[("chunk-1", [exRangeHe])], none⟩

/-! ## Association-list (JavaScript `Map`) lemmas -/

theorem mapGet_cons (p : String × List RangeModel) (rest : List (String × List RangeModel))
    (a : String) :
    mapGet (p :: rest) a = if p.1 = a then some p.2 else mapGet rest a := by
  simp only [mapGet, List.find?]
  by_cases h : p.1 = a
  · simp [h]
  · simp [h]

theorem mapDelete_cons (p : String × List RangeModel) (rest : List (String × List RangeModel))
    (k : String) :
    mapDelete (p :: rest) k = if p.1 = k then mapDelete rest k else p :: mapDelete rest k := by
  simp only [mapDelete, List.filter_cons]
  by_cases h : p.1 = k
  · simp [h]
  · simp [h]

theorem mapGet_mapDelete (m : List (String × List RangeModel)) (k a : String) :
    mapGet (mapDelete m k) a = if a = k then none else mapGet m a := by
  induction m with
  | nil => simp [mapGet, mapDelete]
  | cons p rest ih =>
    rw [mapDelete_cons]
    by_cases hpk : p.1 = k
    · rw [if_pos hpk, ih, mapGet_cons]
      by_cases hak : a = k
      · simp [hak]
      · have : ¬ p.1 = a := by rw [hpk]; intro h; exact hak h.symm
        simp [hak, this]
    · rw [if_neg hpk, mapGet_cons, mapGet_cons, ih]
      by_cases hpa : p.1 = a
      · have hak : ¬ a = k := by intro h; exact hpk (hpa.trans h)
        simp [hpa, hak]
      · simp [hpa]

theorem mapGet_map_replace (rest : List (String × List RangeModel)) (k : String)
    (v : List RangeModel) (a : String) (h : ¬ a = k) :
    mapGet (rest.map (fun p => if p.1 = k then (k, v) else p)) a = mapGet rest a := by
  induction rest with
  | nil => rfl
  | cons q t ih =>
    simp only [List.map_cons]
    by_cases hq : q.1 = k
    · rw [if_pos hq, mapGet_cons, mapGet_cons]
      have h1 : ¬ (k : String) = a := fun hh => h hh.symm
      have h2 : ¬ q.1 = a := by rw [hq]; exact h1
      simp [h1, h2, ih]
    · rw [if_neg hq, mapGet_cons, mapGet_cons, ih]

theorem mapSet_cons_ne (p : String × List RangeModel) (rest : List (String × List RangeModel))
    (k : String) (v : List RangeModel) (h : ¬ p.1 = k) :
    mapSet (p :: rest) k v = p :: mapSet rest k v := by
  simp only [mapSet, List.any_cons]
  by_cases hr : rest.any (fun q => q.1 = k)
  · simp [h, hr]
  · simp [h, hr]

theorem mapSet_cons_eq (p : String × List RangeModel) (rest : List (String × List RangeModel))
    (k : String) (v : List RangeModel) (h : p.1 = k) :
    mapSet (p :: rest) k v = (k, v) :: rest.map (fun q => if q.1 = k then (k, v) else q) := by
  simp only [mapSet, List.any_cons]
  simp [h]

theorem mapGet_mapSet (m : List (String × List RangeModel)) (k : String)
    (v : List RangeModel) (a : String) :
    mapGet (mapSet m k v) a = if a = k then some v else mapGet m a := by
  induction m with
  | nil =>
    simp only [mapSet, List.any_nil, List.nil_append, Bool.false_eq_true, if_false]
    rw [mapGet_cons]
    by_cases hak : a = k
    · simp [hak]
    · have : ¬ (k : String) = a := fun hh => hak hh.symm
      simp [hak, this]
  | cons p rest ih =>
    by_cases hp : p.1 = k
    · rw [mapSet_cons_eq p rest k v hp, mapGet_cons]
      by_cases hak : a = k
      · simp [hak]
      · have hka : ¬ (k : String) = a := fun hh => hak hh.symm
        have hpa : ¬ p.1 = a := by rw [hp]; exact hka
        rw [if_neg hka, if_neg hak, mapGet_map_replace rest k v a hak, mapGet_cons, if_neg hpa]
    · rw [mapSet_cons_ne p rest k v hp, mapGet_cons, ih, mapGet_cons]
      by_cases hpa : p.1 = a
      · have hak : ¬ a = k := by intro hh; exact hp (hpa.trans hh)
        simp [hpa, hak]
      · simp [hpa]

theorem mapDelete_eq_self (m : List (String × List RangeModel)) (k : String)
    (h : mapGet m k = none) : mapDelete m k = m := by
  induction m with
  | nil => rfl
  | cons p rest ih =>
    rw [mapGet_cons] at h
    by_cases hp : p.1 = k
    · rw [if_pos hp] at h; exact absurd h (by simp)
    · rw [if_neg hp] at h
      rw [mapDelete_cons, if_neg hp, ih h]

theorem filter_activeKey_eq_nil (m : List (String × List RangeModel)) (id0 : String)
    (h : mapGet m id0 = none) :
    m.filter (fun p => some p.1 = some id0) = [] := by
  induction m with
  | nil => rfl
  | cons p rest ih =>
    rw [mapGet_cons] at h
    by_cases hp : p.1 = id0
    · rw [if_pos hp] at h; exact absurd h (by simp)
    · rw [if_neg hp] at h
      rw [List.filter_cons]
      have hd : (decide (some p.1 = some id0)) = false := by simp [hp]
      rw [hd]
      simp only [Bool.false_eq_true, if_false]
      exact ih h

/-! ## C4: degenerate inputs of `chunkText` -/

/-- C4, counterexample: the claim says `targetSize <= 0` forces an empty
result, but `chunkText` over the single fragment `"abc"` with
`targetSize = 0` returns one chunk. -/
theorem chunkText_c4_counterexample :
    (0 : Int) ≤ 0 ∧ chunkText [⟨"abc".data, 0⟩] 0 = [⟨"abc".data, 0, 3⟩] ∧
    chunkText [⟨"abc".data, 0⟩] 0 ≠ [] := by decide

/-- C4, amended: an empty fragment list yields the empty chunk list for
every `targetSize` (and `chunkText` is total, so it never raises);
`targetSize <= 0` alone does not force an empty result. -/
theorem chunkText_empty_input (targetSize : Int) : chunkText [] targetSize = [] := by
  simp [chunkText, chunkCore, trimChars]

/-! ## C1: `highlightText` on a failed match -/

theorem removeHighlight_eq_self (st : HighlighterState) (chunkId : String)
    (hget : mapGet st.highlightedChunks chunkId = none)
    (hact : st.activeHighlightId ≠ some chunkId) :
    removeHighlight st chunkId = st := by
  cases st with
  | mk m act =>
    simp only [removeHighlight]
    simp only at hget hact
    rw [mapDelete_eq_self m chunkId hget, if_neg hact]

theorem highlightText_api_failure (doc : DocModel) (st : HighlighterState)
    (chunkId : String) (searchText : List Char)
    (h : (normalizeText searchText).length < 3 ∨ findTextRanges doc searchText = []) :
    highlightText doc st chunkId searchText = (false, removeHighlight st chunkId) := by
  have hr : findTextRanges doc searchText = [] := by
    rcases h with h | h
    · simp only [findTextRanges]
      rw [if_pos h]
    · exact h
  simp [highlightText, hr]

/-- C1, counterexample: two refutations of the claim. (i) With `"chunk-1"`
already registered, a failing sub-3-character `highlightText` call under
the Highlight-API backend returns `false` but changes `getHighlightCount` —
the upfront `removeHighlight(chunkId)` dropped the prior entry. (ii) Under
the DOM-wrapping fallback backend the 3-character floor is not enforced:
the 2-character text `"he"`, present in the document, is located,
registered under `"chunk-1"` and the call returns `true` with the
highlight count increased. -/
theorem highlightText_c1_counterexample :
    ((normalizeText "zz".data).length < 3 ∧
      (highlightText exDoc exHighlighted "chunk-1" "zz".data).1 = false ∧
      getHighlightCount (highlightText exDoc exHighlighted "chunk-1" "zz".data).2
        ≠ getHighlightCount exHighlighted) ∧
    ((normalizeText "he".data).length < 3 ∧
      HighlightTextResult false exDoc emptyHighlighter "chunk-1" "he".data
        (true, exFallbackState) ∧
      getHighlightCount exFallbackState ≠ getHighlightCount emptyHighlighter) := by
  refine ⟨by decide, by decide, ?_, by decide⟩
  have hr : findRangeForText exDoc (normalizeText "he".data) = some exRangeHe := by decide
  have h1 : FallbackResult exDoc (removeHighlight emptyHighlighter "chunk-1") "chunk-1"
      "he".data
      (true, { removeHighlight emptyHighlighter "chunk-1" with
        highlightedChunks :=
          mapSet (removeHighlight emptyHighlighter "chunk-1").highlightedChunks
            "chunk-1" [exRangeHe] }) :=
    FallbackResult.wrapped exRangeHe [exRangeHe] hr (by simp)
  have hst : ({ removeHighlight emptyHighlighter "chunk-1" with
      highlightedChunks :=
        mapSet (removeHighlight emptyHighlighter "chunk-1").highlightedChunks
          "chunk-1" [exRangeHe] } : HighlighterState) = exFallbackState := by decide
  rw [hst] at h1
  exact HighlightTextResult.fallback rfl _ h1

/-- C1, amended: `highlightText(id, text)` first performs
`removeHighlight(id)`.  Under the CSS-Custom-Highlight-API backend, if the
normalized search text is shorter than 3 characters or `findTextRanges`
finds no match, the call returns `false` with no entry added — the final
state is exactly `removeHighlight(id)`'s, so for an id with no prior entry
and not marked active the registry (hence `getHighlightCount()`) is
unchanged.  Under the DOM-wrapping fallback backend the same holds when
`findRangeForText` on the normalized text finds no range; the 3-character
floor is not enforced there (see the counterexample's second part: a
sub-3-character text present in the document can register and return
`true`). -/
theorem highlightText_failure_state (supportsHighlightAPI : Bool) (doc : DocModel)
    (st : HighlighterState) (chunkId : String) (searchText : List Char)
    (out : Bool × HighlighterState)
    (hout : HighlightTextResult supportsHighlightAPI doc st chunkId searchText out)
    (h : if supportsHighlightAPI
      then (normalizeText searchText).length < 3 ∨ findTextRanges doc searchText = []
      else findRangeForText doc (normalizeText searchText) = none) :
    out = (false, removeHighlight st chunkId) ∧
    (mapGet st.highlightedChunks chunkId = none ∧ st.activeHighlightId ≠ some chunkId →
      out = (false, st)) := by
  have hmain : out = (false, removeHighlight st chunkId) := by
    cases hout with
    | api hsup =>
      rw [if_pos hsup] at h
      exact highlightText_api_failure doc st chunkId searchText h
    | fallback hsup outp hres =>
      rw [if_neg (by simp [hsup])] at h
      cases hres with
      | noRange hnone => rfl
      | wrapped r ranges hr hne =>
        rw [h] at hr
        exact absurd hr (by simp)
      | wrapFailed r hr => rfl
  refine ⟨hmain, ?_⟩
  rintro ⟨hget, hact⟩
  rw [hmain, removeHighlight_eq_self st chunkId hget hact]

theorem highlightText_failure_state_witness :
    highlightText exDoc emptyHighlighter "chunk-1" "zz".data
      = (false, removeHighlight emptyHighlighter "chunk-1") ∧
    highlightText exDoc emptyHighlighter "chunk-1" "zz".data = (false, emptyHighlighter) := by
  have hout : HighlightTextResult true exDoc emptyHighlighter "chunk-1" "zz".data
      (highlightText exDoc emptyHighlighter "chunk-1" "zz".data) :=
    HighlightTextResult.api rfl
  have main := highlightText_failure_state true exDoc emptyHighlighter "chunk-1" "zz".data
    (highlightText exDoc emptyHighlighter "chunk-1" "zz".data) hout (by decide)
  exact ⟨main.1, main.2 ⟨by decide, by decide⟩⟩

/-! ## C2: `setActiveHighlight` on an unknown id -/

/-- C2, counterexample: from a state with an active `"chunk-1"`,
`setActiveHighlight` on the unknown id `"nope"` changes the active marker
(demoting the previously active entry's rendering) — it is not a no-op. -/
theorem setActiveHighlight_c2_counterexample :
    mapGet exActive.highlightedChunks "nope" = none ∧
    (setActiveHighlight exActive "nope").activeHighlightId ≠ exActive.activeHighlightId ∧
    renderedActiveRanges (setActiveHighlight exActive "nope") ≠ renderedActiveRanges exActive := by
  decide

/-- C2, amended: `setActiveHighlight` on an id with no registry entry never
throws and leaves the registry entries unchanged, but it does set the
active marker to the unknown id, so no entry is rendered active afterwards
(a previously active entry is demoted to plain). -/
theorem setActiveHighlight_unknown_id (st : HighlighterState) (id0 : String)
    (h : mapGet st.highlightedChunks id0 = none) :
    (setActiveHighlight st id0).highlightedChunks = st.highlightedChunks ∧
    (setActiveHighlight st id0).activeHighlightId = some id0 ∧
    renderedActiveRanges (setActiveHighlight st id0) = [] := by
  refine ⟨rfl, rfl, ?_⟩
  simp only [renderedActiveRanges, setActiveHighlight]
  rw [filter_activeKey_eq_nil st.highlightedChunks id0 h]
  rfl

theorem setActiveHighlight_unknown_id_witness :
    mapGet exActive.highlightedChunks "nope" = none ∧
    (setActiveHighlight exActive "nope").highlightedChunks = exActive.highlightedChunks ∧
    (setActiveHighlight exActive "nope").activeHighlightId = some "nope" ∧
    renderedActiveRanges (setActiveHighlight exActive "nope") = [] := by
  have h : mapGet exActive.highlightedChunks "nope" = none := by decide
  have main := setActiveHighlight_unknown_id exActive "nope" h
  exact ⟨h, main.1, main.2.1, main.2.2⟩

/-! ## C3: the active-id invariant -/

/-- C3, counterexample: `setActiveHighlight "x"` on the empty registry is a
reachable one-step state whose active marker dangles (no entry for `"x"`). -/
theorem activeHasEntry_c3_counterexample :
    ReachableState (setActiveHighlight emptyHighlighter "x") ∧
    (setActiveHighlight emptyHighlighter "x").activeHighlightId = some "x" ∧
    mapGet (setActiveHighlight emptyHighlighter "x").highlightedChunks "x" = none :=
  ⟨Relation.ReflTransGen.single (HighlighterStep.setActive emptyHighlighter "x"), rfl, rfl⟩

theorem activeHasEntry_removeHighlight (st : HighlighterState) (chunkId : String)
    (h : ActiveHasEntry st) : ActiveHasEntry (removeHighlight st chunkId) := by
  intro a ha
  simp only [removeHighlight] at ha ⊢
  by_cases hc : st.activeHighlightId = some chunkId
  · rw [if_pos hc] at ha; exact absurd ha (by simp)
  · rw [if_neg hc] at ha
    have hak : ¬ a = chunkId := by
      intro he; subst he; exact hc ha
    rw [mapGet_mapDelete, if_neg hak]
    exact h a ha

theorem activeHasEntry_highlightText (doc : DocModel) (st : HighlighterState)
    (chunkId : String) (searchText : List Char) (h : ActiveHasEntry st) :
    ActiveHasEntry (highlightText doc st chunkId searchText).2 := by
  by_cases hr : findTextRanges doc searchText = []
  · have heq : (highlightText doc st chunkId searchText).2 = removeHighlight st chunkId := by
      simp [highlightText, hr]
    rw [heq]
    exact activeHasEntry_removeHighlight st chunkId h
  · have heq : (highlightText doc st chunkId searchText).2 =
        { removeHighlight st chunkId with
          highlightedChunks :=
            mapSet (removeHighlight st chunkId).highlightedChunks chunkId
              (findTextRanges doc searchText) } := by
      simp [highlightText, hr]
    rw [heq]
    intro a ha
    simp only at ha ⊢
    rw [mapGet_mapSet]
    by_cases hak : a = chunkId
    · simp [hak]
    · rw [if_neg hak]
      exact activeHasEntry_removeHighlight st chunkId h a ha

/-- C3, amended: the invariant "the active id always has a registry entry"
holds for every state reachable from the pristine state by the public
operations, provided `setActiveHighlight` is only invoked on ids currently
present in the registry; the unrestricted claim fails (see the
counterexample). -/
theorem activeHasEntry_of_reachableKnown (st : HighlighterState)
    (h : ReachableStateKnown st) : ActiveHasEntry st := by
  induction h with
  | refl =>
    intro id0 h0
    exact absurd h0 (by simp [emptyHighlighter])
  | tail hreach hstep ih =>
    cases hstep with
    | highlight doc chunkId searchText =>
      exact activeHasEntry_highlightText doc _ chunkId searchText ih
    | remove chunkId =>
      exact activeHasEntry_removeHighlight _ chunkId ih
    | setActive chunkId hknown =>
      intro a ha
      simp only [setActiveHighlight, Option.some.injEq] at ha ⊢
      rw [← ha]
      exact hknown
    | clearAll =>
      intro a ha
      exact absurd ha (by simp [clearAllHighlights])

theorem activeHasEntry_of_reachableKnown_witness :
    mapGet exActive.highlightedChunks "chunk-1" ≠ none := by
  have hreach : ReachableStateKnown exActive :=
    Relation.ReflTransGen.tail
      (Relation.ReflTransGen.single
        (HighlighterStepKnown.highlight emptyHighlighter exDoc "chunk-1" "hello world".data))
      (HighlighterStepKnown.setActive exHighlighted "chunk-1" (by decide))
  exact activeHasEntry_of_reachableKnown exActive hreach "chunk-1" (by decide)

/-! ## C5: locator vs. extractor text-node eligibility -/

/-- C5, counterexample: a text node under a `NAV` parent is collected by the
locator's flattened-string walk but rejected by the extractor, so the two
eligibility rules are not the same. -/
theorem locatorEligibility_c5_counterexample :
    locatorCollectsNode exNavNode = true ∧ extractorAcceptsNode false exNavNode = false := by
  decide

/-- C5, amended: the locator's eligibility is strictly weaker than the
extractor's, not equal to it: every text node the extractor accepts is also
collected by the locator (which checks only parent existence, parent
visibility, the four tags SCRIPT/STYLE/NOSCRIPT/TEMPLATE, and
non-whitespace text), but not conversely. -/
theorem extractor_accepts_implies_locator_collects (hasMainContent : Bool) (n : DomTextNode)
    (h : extractorAcceptsNode hasMainContent n = true) : locatorCollectsNode n = true := by
  cases n with
  | mk text ancestors inMain =>
    cases ancestors with
    | nil => simp [extractorAcceptsNode] at h
    | cons parent rest =>
      simp only [extractorAcceptsNode, Bool.and_eq_true, Bool.not_eq_true',
        decide_eq_true_eq] at h
      obtain ⟨_hroot, ⟨⟨hvis, hskip⟩, htrim⟩, _hlen⟩ := h
      have hcontains : SKIP_TAGS.contains parent.tagName = false := by
        simp only [shouldSkipElement, shouldSkipGo] at hskip
        rw [if_neg (by omega)] at hskip
        by_cases hc : SKIP_TAGS.contains parent.tagName = true
        · rw [if_pos hc] at hskip
          exact absurd hskip (by simp)
        · exact Bool.not_eq_true _ ▸ hc
      have h4 : (["SCRIPT", "STYLE", "NOSCRIPT", "TEMPLATE"] : List String).contains
          parent.tagName = false := by
        by_cases hc : (["SCRIPT", "STYLE", "NOSCRIPT", "TEMPLATE"] : List String).contains
          parent.tagName = true
        · have hmem' : parent.tagName = "SCRIPT" ∨ parent.tagName = "STYLE" ∨
              parent.tagName = "NOSCRIPT" ∨ parent.tagName = "TEMPLATE" := by
            simpa using hc
          have hsk : SKIP_TAGS.contains parent.tagName = true := by
            rcases hmem' with h1 | h1 | h1 | h1 <;> rw [h1] <;> decide
          rw [hsk] at hcontains
          exact absurd hcontains (by simp)
        · exact Bool.not_eq_true _ ▸ hc
      simp only [locatorCollectsNode, locatorAcceptsNode, Bool.and_eq_true, Bool.not_eq_true']
      exact ⟨⟨hvis, h4⟩, htrim⟩

theorem extractor_accepts_implies_locator_collects_witness :
    extractorAcceptsNode false exContentNode = true ∧ locatorCollectsNode exContentNode = true :=
  ⟨by decide, extractor_accepts_implies_locator_collects false exContentNode (by decide)⟩

/-! ## C10: offset safety of the location algorithm -/

theorem mapNormalizedToActualGo_le (normalizedPos : Nat) (l : List Char) :
    ∀ (i normIndex : Nat) (inWs : Bool),
      mapNormalizedToActualGo normalizedPos l i normIndex inWs ≤ i + l.length := by
  induction l with
  | nil =>
    intro i ni iw
    simp [mapNormalizedToActualGo]
  | cons c rest ih =>
    intro i ni iw
    simp only [mapNormalizedToActualGo, List.length_cons]
    split
    · omega
    · split
      · split
        · exact le_trans (ih (i + 1) ni true) (by omega)
        · exact le_trans (ih (i + 1) (ni + 1) true) (by omega)
      · exact le_trans (ih (i + 1) (ni + 1) false) (by omega)

/-- C10: `mapNormalizedToActual` always lands in `[0, text.length]` (the
result is a `Nat`, so the lower bound is intrinsic), and consequently the
(clamped) offsets of any range produced by `findRangeForText` are within
the bounds of their respective text nodes. -/
theorem locatedOffsets_within_bounds :
    (∀ (text : List Char) (normalizedPos : Nat),
      mapNormalizedToActual text normalizedPos ≤ text.length) ∧
    (∀ (doc : DocModel) (searchText : List Char) (r : RangeModel),
      findRangeForText doc searchText = some r →
      r.startOffset ≤ r.startText.length ∧ r.endOffset ≤ r.endText.length) := by
  constructor
  · intro text normalizedPos
    have := mapNormalizedToActualGo_le normalizedPos text 0 0 false
    simpa [mapNormalizedToActual] using this
  · intro doc searchText r h
    simp only [findRangeForText] at h
    split at h
    · exact absurd h (by simp)
    · split at h
      · exact absurd h (by simp)
      · rw [Option.some.injEq] at h
        subst h
        exact ⟨Nat.min_le_right _ _, Nat.min_le_right _ _⟩

theorem locatedOffsets_within_bounds_witness :
    mapNormalizedToActual "hello world".data 5 ≤ ("hello world".data).length ∧
    findRangeForText exDoc "hello world".data = some exRange ∧
    exRange.startOffset ≤ exRange.startText.length ∧
    exRange.endOffset ≤ exRange.endText.length := by
  have h : findRangeForText exDoc "hello world".data = some exRange := by decide
  exact ⟨locatedOffsets_within_bounds.1 "hello world".data 5, h,
    locatedOffsets_within_bounds.2 exDoc "hello world".data exRange h⟩

/-! ## Ranker lemmas: stable sorting and score computation -/

theorem mem_sortInsert (x z : Scored) (l : List Scored) :
    z ∈ sortInsert x l ↔ z = x ∨ z ∈ l := by
  induction l with
  | nil => simp [sortInsert]
  | cons y ys ih =>
    simp only [sortInsert]
    split
    all_goals simp only [List.mem_cons, ih]
    all_goals tauto

theorem sortInsert_sorted (x : Scored) (l : List Scored)
    (h : l.Pairwise (fun a b => b.score ≤ a.score)) :
    (sortInsert x l).Pairwise (fun a b => b.score ≤ a.score) := by
  induction l with
  | nil => simp [sortInsert]
  | cons y ys ih =>
    rw [List.pairwise_cons] at h
    obtain ⟨hy, hys⟩ := h
    simp only [sortInsert]
    split
    · rename_i hyx
      rw [List.pairwise_cons]
      refine ⟨?_, List.pairwise_cons.mpr ⟨hy, hys⟩⟩
      intro z hz
      rcases List.mem_cons.mp hz with rfl | hz'
      · exact hyx
      · exact le_trans (hy z hz') hyx
    · rename_i hyx
      push_neg at hyx
      rw [List.pairwise_cons]
      constructor
      · intro z hz
        rcases (mem_sortInsert x z ys).mp hz with rfl | hz'
        · exact le_of_lt hyx
        · exact hy z hz'
      · exact ih hys

theorem sortInsert_stable (x : Scored) (l : List Scored)
    (hsorted : l.Pairwise (fun a b => b.score ≤ a.score))
    (hl : l.Pairwise StableR) (hx : ∀ y ∈ l, StableR x y) :
    (sortInsert x l).Pairwise StableR := by
  induction l with
  | nil => simp [sortInsert]
  | cons y ys ih =>
    rw [List.pairwise_cons] at hl hsorted
    obtain ⟨hyR, hysR⟩ := hl
    obtain ⟨hyS, hysS⟩ := hsorted
    simp only [sortInsert]
    split
    · rw [List.pairwise_cons]
      refine ⟨?_, List.pairwise_cons.mpr ⟨hyR, hysR⟩⟩
      intro z hz
      rcases List.mem_cons.mp hz with rfl | hz'
      · exact hx z (List.mem_cons_self _ _)
      · exact hx z (List.mem_cons_of_mem _ hz')
    · rename_i hyx
      push_neg at hyx
      rw [List.pairwise_cons]
      constructor
      · intro z hz
        rcases (mem_sortInsert x z ys).mp hz with rfl | hz'
        · exact fun heq => absurd heq (ne_of_gt hyx)
        · exact hyR z hz'
      · exact ih hysS hysR (fun z hz => hx z (List.mem_cons_of_mem _ hz))

theorem sortByScoreDesc_sorted (l : List Scored) :
    (sortByScoreDesc l).Pairwise (fun a b => b.score ≤ a.score) := by
  induction l with
  | nil => simp [sortByScoreDesc]
  | cons x xs ih => exact sortInsert_sorted x _ ih

theorem mem_sortByScoreDesc (z : Scored) (l : List Scored) :
    z ∈ sortByScoreDesc l ↔ z ∈ l := by
  induction l with
  | nil => simp [sortByScoreDesc]
  | cons x xs ih =>
    simp only [sortByScoreDesc, mem_sortInsert, ih, List.mem_cons]

theorem sortByScoreDesc_stable (l : List Scored) (h : l.Pairwise StableR) :
    (sortByScoreDesc l).Pairwise StableR := by
  induction l with
  | nil => simp [sortByScoreDesc]
  | cons x xs ih =>
    rw [List.pairwise_cons] at h
    obtain ⟨hx, hxs⟩ := h
    exact sortInsert_stable x _ (sortByScoreDesc_sorted xs) (ih hxs)
      (fun y hy => hx y ((mem_sortByScoreDesc y xs).mp hy))

theorem computeScores_ok_indices (q : List ℝ) (chunks : List RankChunk) :
    ∀ (i : Nat) (l : List Scored), computeScores q chunks i = .ok l →
      l.Pairwise (fun a b => a.index < b.index) ∧ ∀ e ∈ l, i ≤ e.index := by
  induction chunks with
  | nil =>
    intro i l h
    simp only [computeScores, Except.ok.injEq] at h
    subst h
    simp
  | cons c rest ih =>
    intro i l h
    simp only [computeScores] at h
    cases hcs : cosineSimilarity q c.embedding with
    | error e => rw [hcs] at h; exact absurd h (by simp)
    | ok s =>
      rw [hcs] at h
      cases hrest : computeScores q rest (i + 1) with
      | error e => rw [hrest] at h; exact absurd h (by simp)
      | ok tail =>
        rw [hrest] at h
        simp only [Except.ok.injEq] at h
        subst h
        obtain ⟨htail, hge⟩ := ih (i + 1) tail hrest
        constructor
        · rw [List.pairwise_cons]
          exact ⟨fun e he => lt_of_lt_of_le (Nat.lt_succ_self i) (hge e he), htail⟩
        · intro e he
          rcases List.mem_cons.mp he with rfl | he'
          · exact le_refl i
          · exact le_trans (Nat.le_succ i) (hge e he')

/-! ## C9: `cosineSimilarity` error and zero-norm contract -/

/-- C9: `cosineSimilarity(a, b)` fails with the length-mismatch error if
and only if the lengths differ; for equal lengths, if either vector is all
zeros the result is exactly `0` (no division is attempted). -/
theorem cosineSimilarity_contract (a b : List ℝ) :
    ((∃ e, cosineSimilarity a b = .error e) ↔ a.length ≠ b.length) ∧
    (a.length = b.length →
      ((∀ x ∈ a, x = 0) ∨ (∀ x ∈ b, x = 0)) → cosineSimilarity a b = .ok 0) := by
  constructor
  · constructor
    · rintro ⟨e, he⟩
      by_contra hlen
      have hne : ¬ (a.length ≠ b.length) := fun hc => hc hlen
      simp only [cosineSimilarity, if_neg hne] at he
      split at he
      · exact absurd he (by simp)
      · exact absurd he (by simp)
    · intro hlen
      refine ⟨"Vectors must have the same length", ?_⟩
      simp only [cosineSimilarity, if_pos hlen]
  · intro hlen hzero
    have h0 : Real.sqrt ((a.map fun x => x * x).sum) = 0 ∨
        Real.sqrt ((b.map fun x => x * x).sum) = 0 := by
      rcases hzero with hz | hz
      · left
        have hs : (a.map fun x => x * x).sum = 0 := by
          apply List.sum_eq_zero
          intro y hy
          obtain ⟨x, hx, rfl⟩ := List.mem_map.mp hy
          rw [hz x hx]
          ring
        rw [hs, Real.sqrt_zero]
      · right
        have hs : (b.map fun x => x * x).sum = 0 := by
          apply List.sum_eq_zero
          intro y hy
          obtain ⟨x, hx, rfl⟩ := List.mem_map.mp hy
          rw [hz x hx]
          ring
        rw [hs, Real.sqrt_zero]
    have hne : ¬ a.length ≠ b.length := fun hc => hc hlen
    simp only [cosineSimilarity, if_neg hne]
    rw [if_pos h0]

theorem cosineSimilarity_contract_witness :
    ([(1 : ℝ)].length = [(0 : ℝ)].length) ∧ cosineSimilarity [(1 : ℝ)] [(0 : ℝ)] = .ok 0 := by
  refine ⟨rfl, (cosineSimilarity_contract [(1 : ℝ)] [(0 : ℝ)]).2 rfl (Or.inr ?_)⟩
  intro x hx
  simpa using hx

theorem computeScores_ok_of_lengths (q : List ℝ) (chunks : List RankChunk)
    (hlen : ∀ c ∈ chunks, c.embedding.length = q.length) :
    ∀ i : Nat, ∃ l, computeScores q chunks i = .ok l := by
  induction chunks with
  | nil => intro i; exact ⟨[], rfl⟩
  | cons c rest ih =>
    intro i
    have hc : ¬ q.length ≠ c.embedding.length := by
      have := hlen c (List.mem_cons_self _ _)
      omega
    have hok : ∃ s, cosineSimilarity q c.embedding = .ok s := by
      simp only [cosineSimilarity, if_neg hc]
      by_cases h0 : Real.sqrt ((q.map fun x => x * x).sum) = 0 ∨
          Real.sqrt ((c.embedding.map fun x => x * x).sum) = 0
      · exact ⟨0, by rw [if_pos h0]⟩
      · exact ⟨_, by rw [if_neg h0]⟩
    obtain ⟨s, hs⟩ := hok
    obtain ⟨tail, htail⟩ := ih (fun c' hc' => hlen c' (List.mem_cons_of_mem _ hc')) (i + 1)
    refine ⟨⟨i, s⟩ :: tail, ?_⟩
    simp only [computeScores]
    rw [hs, htail]

/-! ## C6: tie-breaking of `findTopKSimilar` -/

/-- C6: whenever `findTopKSimilar` succeeds, any two output entries with
equal scores appear in ascending order of their original chunk indices
(the stable sort retains the enumeration order of the input). -/
theorem findTopKSimilar_ties_ascending (q : List ℝ) (chunks : List RankChunk)
    (k : Nat) (threshold : ℝ) (out : List Scored)
    (h : findTopKSimilar q chunks k threshold = .ok out) :
    out.Pairwise (fun a b => a.score = b.score → a.index < b.index) := by
  simp only [findTopKSimilar] at h
  cases hcs : computeScores q chunks 0 with
  | error e => rw [hcs] at h; exact absurd h (by simp)
  | ok scores =>
    rw [hcs] at h
    simp only [Except.ok.injEq] at h
    subst h
    have hidx := (computeScores_ok_indices q chunks 0 scores hcs).1
    have hR : scores.Pairwise StableR :=
      hidx.imp (fun hab => fun _heq => hab)
    have hfil : (scores.filter (passesThreshold threshold)).Pairwise StableR :=
      hR.filter _
    have hsorted := sortByScoreDesc_stable _ hfil
    exact hsorted.take

theorem cosineSimilarity_one_one : cosineSimilarity [(1 : ℝ)] [(1 : ℝ)] = .ok 1 := by
  have hne : ¬ ([(1 : ℝ)].length ≠ [(1 : ℝ)].length) := fun hc => hc rfl
  simp only [cosineSimilarity, if_neg hne]
  have hs : Real.sqrt (([(1 : ℝ)].map fun x => x * x).sum) = 1 := by
    norm_num
  rw [hs]
  norm_num

theorem findTopKSimilar_two_ones_eval :
    findTopKSimilar [(1 : ℝ)] [⟨[1]⟩, ⟨[1]⟩] 2 0 = .ok [⟨0, 1⟩, ⟨1, 1⟩] := by
  have hcs : computeScores [(1 : ℝ)] [⟨[1]⟩, ⟨[1]⟩] 0 = .ok [⟨0, 1⟩, ⟨1, 1⟩] := by
    simp only [computeScores, cosineSimilarity_one_one]
  simp only [findTopKSimilar, hcs]
  have hfil : ([⟨0, 1⟩, ⟨1, 1⟩] : List Scored).filter (passesThreshold 0)
      = [⟨0, 1⟩, ⟨1, 1⟩] := by
    simp [passesThreshold, List.filter]
  rw [hfil]
  have hsort : sortByScoreDesc [⟨0, 1⟩, ⟨1, 1⟩] = [⟨0, 1⟩, ⟨1, 1⟩] := by
    simp [sortByScoreDesc, sortInsert]
  rw [hsort]
  rfl

theorem findTopKSimilar_ties_ascending_witness :
    findTopKSimilar [(1 : ℝ)] [⟨[1]⟩, ⟨[1]⟩] 2 0 = .ok [⟨0, 1⟩, ⟨1, 1⟩] ∧
    List.Pairwise (fun a b => a.score = b.score → a.index < b.index)
      ([⟨0, (1 : ℝ)⟩, ⟨1, 1⟩] : List Scored) :=
  ⟨findTopKSimilar_two_ones_eval,
   findTopKSimilar_ties_ascending [(1 : ℝ)] [⟨[1]⟩, ⟨[1]⟩] 2 0 _
     findTopKSimilar_two_ones_eval⟩

/-! ## C8: the `findTopKSimilar` contract -/

/-- C8: for equal-dimension embeddings `findTopKSimilar` succeeds; every
returned entry passes the threshold, scores are non-increasing, at most `k`
entries are returned, and an empty chunk list or an empty post-filter set
yields the empty list rather than an error. -/
theorem findTopKSimilar_contract (q : List ℝ) (chunks : List RankChunk)
    (k : Nat) (threshold : ℝ)
    (hlen : ∀ c ∈ chunks, c.embedding.length = q.length) :
    ∃ out, findTopKSimilar q chunks k threshold = .ok out ∧
      out.length ≤ k ∧
      (∀ e ∈ out, threshold ≤ e.score) ∧
      out.Pairwise (fun a b => b.score ≤ a.score) ∧
      (chunks = [] → out = []) ∧
      (∀ scores, computeScores q chunks 0 = .ok scores →
        scores.filter (passesThreshold threshold) = [] → out = []) := by
  obtain ⟨scores, hsc⟩ := computeScores_ok_of_lengths q chunks hlen 0
  refine ⟨(sortByScoreDesc (scores.filter (passesThreshold threshold))).take k,
    ?_, ?_, ?_, ?_, ?_, ?_⟩
  · simp only [findTopKSimilar]
    rw [hsc]
  · exact List.length_take_le k _
  · intro e he
    have hmem : e ∈ sortByScoreDesc (scores.filter (passesThreshold threshold)) :=
      List.mem_of_mem_take he
    have hmem2 : e ∈ scores.filter (passesThreshold threshold) :=
      (mem_sortByScoreDesc e _).mp hmem
    have := (List.mem_filter.mp hmem2).2
    simpa [passesThreshold] using this
  · exact (sortByScoreDesc_sorted _).take
  · intro hchunks
    subst hchunks
    simp only [computeScores, Except.ok.injEq] at hsc
    subst hsc
    simp [sortByScoreDesc]
  · intro scores' hsc' hfil
    rw [hsc] at hsc'
    simp only [Except.ok.injEq] at hsc'
    subst hsc'
    rw [hfil]
    simp [sortByScoreDesc]

theorem findTopKSimilar_contract_witness :
    (∀ c ∈ ([⟨[1]⟩] : List RankChunk), c.embedding.length = [(1 : ℝ)].length) ∧
    ∃ out, findTopKSimilar [(1 : ℝ)] [⟨[1]⟩] 1 0 = .ok out ∧
      out.length ≤ 1 ∧
      (∀ e ∈ out, (0 : ℝ) ≤ e.score) ∧
      out.Pairwise (fun a b => b.score ≤ a.score) ∧
      (([⟨[1]⟩] : List RankChunk) = [] → out = []) ∧
      (∀ scores, computeScores [(1 : ℝ)] [⟨[1]⟩] 0 = .ok scores →
        scores.filter (passesThreshold 0) = [] → out = []) := by
  have hlen : ∀ c ∈ ([⟨[1]⟩] : List RankChunk), c.embedding.length = [(1 : ℝ)].length := by
    simp
  exact ⟨hlen, findTopKSimilar_contract [(1 : ℝ)] [⟨[1]⟩] 1 0 hlen⟩

/-! ## C7: the chunker never splits a fragment -/

theorem trimChars_eq_self (t : List Char)
    (h1 : t.head?.any isJsWhitespace = false)
    (h2 : t.getLast?.any isJsWhitespace = false) : trimChars t = t := by
  cases t with
  | nil => rfl
  | cons c rest =>
    have hc : isJsWhitespace c = false := by simpa using h1
    have hdrop : (c :: rest).dropWhile isJsWhitespace = c :: rest := by
      rw [List.dropWhile_cons]
      simp [hc]
    unfold trimChars
    rw [hdrop]
    cases hrev : (c :: rest).reverse with
    | nil => exact absurd hrev (by simp)
    | cons d ds =>
      have hd : (c :: rest).getLast? = some d := by
        rw [← List.head?_reverse, hrev]
        rfl
      have hdws : isJsWhitespace d = false := by
        rw [hd] at h2
        simpa using h2
      rw [List.dropWhile_cons]
      simp only [hdws, Bool.false_eq_true, if_false]
      rw [← hrev, List.reverse_reverse]

theorem noEdgeWs_split (t : List Char) (h : noEdgeWs t = true) :
    t.head?.any isJsWhitespace = false ∧ t.getLast?.any isJsWhitespace = false := by
  simp only [noEdgeWs, Bool.and_eq_true, Bool.not_eq_true'] at h
  exact h

theorem joinSp_singleton (t : List Char) : joinSp [t] = t := rfl

theorem joinSp_cons (t : List Char) (ts : List (List Char)) (h : ts ≠ []) :
    joinSp (t :: ts) = t ++ ' ' :: joinSp ts := by
  cases ts with
  | nil => exact absurd rfl h
  | cons u us => rfl

theorem joinSp_good (g : List (List Char)) (hne : g ≠ [])
    (hg : ∀ t ∈ g, t ≠ [] ∧ noEdgeWs t = true) :
    joinSp g ≠ [] ∧ noEdgeWs (joinSp g) = true := by
  induction g with
  | nil => exact absurd rfl hne
  | cons t ts ih =>
    cases ts with
    | nil =>
      exact ⟨(hg t (by simp)).1, (hg t (by simp)).2⟩
    | cons u us =>
      have hts : (u :: us : List (List Char)) ≠ [] := by simp
      obtain ⟨hJne, hJedge⟩ := ih hts (fun x hx => hg x (List.mem_cons_of_mem _ hx))
      have htne : t ≠ [] := (hg t (by simp)).1
      have htedge := noEdgeWs_split t (hg t (by simp)).2
      rw [joinSp_cons t (u :: us) hts]
      constructor
      · intro hcontra
        exact htne (List.append_eq_nil.mp hcontra).1
      · have hJsplit := noEdgeWs_split _ hJedge
        simp only [noEdgeWs, Bool.and_eq_true, Bool.not_eq_true']
        constructor
        · cases t with
          | nil => exact absurd rfl htne
          | cons c t' =>
            have : isJsWhitespace c = false := by
              have := htedge.1
              simpa using this
            simpa using this
        · rw [List.getLast?_append_of_ne_nil _ (by simp : (' ' :: joinSp (u :: us)) ≠ [])]
          cases hJ : joinSp (u :: us) with
          | nil => exact absurd hJ hJne
          | cons j js =>
            rw [← List.singleton_append,
              List.getLast?_append_of_ne_nil _ (by simp : (j :: js) ≠ [])]
            have := hJsplit.2
            rw [hJ] at this
            exact this

theorem joinSp_append (a b : List (List Char)) (ha : a ≠ []) (hb : b ≠ []) :
    joinSp (a ++ b) = joinSp a ++ ' ' :: joinSp b := by
  induction a with
  | nil => exact absurd rfl ha
  | cons x a' ih =>
    cases a' with
    | nil =>
      rw [List.singleton_append, joinSp_cons x b hb]
      rfl
    | cons y a'' =>
      have ha' : (y :: a'' : List (List Char)) ≠ [] := by simp
      rw [List.cons_append, joinSp_cons x ((y :: a'') ++ b) (by simp),
        joinSp_cons x (y :: a'') ha', ih ha']
      simp [List.append_assoc]

theorem flatten_ne_nil (p : List (List (List Char))) (hne : p ≠ [])
    (hg : ∀ g ∈ p, g ≠ []) : p.flatten ≠ [] := by
  cases p with
  | nil => exact absurd rfl hne
  | cons g rest =>
    simp only [List.flatten_cons]
    intro hcontra
    exact (hg g (by simp)) (List.append_eq_nil.mp hcontra).1

theorem joinSp_flatten (p : List (List (List Char))) (hg : ∀ g ∈ p, g ≠ []) :
    joinSp (p.map joinSp) = joinSp p.flatten := by
  induction p with
  | nil => rfl
  | cons g rest ih =>
    cases hrest : rest with
    | nil => simp [joinSp]
    | cons h' t' =>
      rw [← hrest]
      have hrne : rest ≠ [] := by rw [hrest]; simp
      have hmapne : rest.map joinSp ≠ [] := by
        rw [hrest]; simp
      rw [List.map_cons, joinSp_cons _ _ hmapne, ih (fun x hx => hg x (List.mem_cons_of_mem _ hx)),
        List.flatten_cons,
        joinSp_append g rest.flatten (hg g (by simp))
          (flatten_ne_nil rest hrne (fun x hx => hg x (List.mem_cons_of_mem _ hx)))]



theorem chunkCore_partition (ts : Int) (frags : List TextNode) :
    ∀ (g : List TextNode) (curStart lastO : Nat),
      (∀ tn ∈ frags, tn.text ≠ [] ∧ noEdgeWs tn.text = true) →
      (∀ tn ∈ g, tn.text ≠ [] ∧ noEdgeWs tn.text = true) →
      ∃ partition : List (List TextNode),
        partition.flatten = g ++ frags ∧
        (∀ grp ∈ partition, grp ≠ []) ∧
        (chunkCore ts frags (joinSp (g.map TextNode.text)) curStart lastO).map TextChunk.text
          = partition.map (fun grp => joinSp (grp.map TextNode.text)) := by
  induction frags with
  | nil =>
    intro g curStart lastO _ hg
    by_cases hgnil : g = []
    · subst hgnil
      refine ⟨[], by simp, by simp, ?_⟩
      simp [chunkCore, joinSp, trimChars]
    · have hmap : ∀ t ∈ g.map TextNode.text, t ≠ [] ∧ noEdgeWs t = true := by
        intro t ht
        obtain ⟨tn, htn, rfl⟩ := List.mem_map.mp ht
        exact hg tn htn
      have hmapne : g.map TextNode.text ≠ [] := by
        intro hc
        exact hgnil (List.map_eq_nil_iff.mp hc)
      obtain ⟨hJne, hJedge⟩ := joinSp_good _ hmapne hmap
      obtain ⟨he1, he2⟩ := noEdgeWs_split _ hJedge
      have htr : trimChars (joinSp (g.map TextNode.text)) = joinSp (g.map TextNode.text) :=
        trimChars_eq_self _ he1 he2
      refine ⟨[g], by simp, by simp [hgnil], ?_⟩
      simp only [chunkCore, htr]
      rw [if_pos (List.length_pos.mpr hJne)]
      simp
  | cons tn rest ih =>
    intro g curStart lastO hfr hg
    have hfr' : ∀ x ∈ rest, x.text ≠ [] ∧ noEdgeWs x.text = true :=
      fun x hx => hfr x (List.mem_cons_of_mem _ hx)
    have htn := hfr tn (List.mem_cons_self _ _)
    by_cases hcond : 0 < (joinSp (g.map TextNode.text)).length ∧
        ts < ((joinSp (g.map TextNode.text)).length : Int) + (tn.text.length : Int)
    · have hgne : g ≠ [] := by
        intro hgc
        subst hgc
        simp [joinSp] at hcond
      have hmap : ∀ t ∈ g.map TextNode.text, t ≠ [] ∧ noEdgeWs t = true := by
        intro t ht
        obtain ⟨x, hx, rfl⟩ := List.mem_map.mp ht
        exact hg x hx
      have hmapne : g.map TextNode.text ≠ [] := by
        intro hc
        exact hgne (List.map_eq_nil_iff.mp hc)
      obtain ⟨hJne, hJedge⟩ := joinSp_good _ hmapne hmap
      obtain ⟨he1, he2⟩ := noEdgeWs_split _ hJedge
      have htr : trimChars (joinSp (g.map TextNode.text)) = joinSp (g.map TextNode.text) :=
        trimChars_eq_self _ he1 he2
      obtain ⟨p', hflat', hne', hmap'⟩ :=
        ih [tn] tn.startOffset (tn.startOffset + tn.text.length) hfr' (by simpa using htn)
      refine ⟨g :: p', ?_, ?_, ?_⟩
      · simp [hflat']
      · intro grp hgrp
        rcases List.mem_cons.mp hgrp with rfl | h'
        · exact hgne
        · exact hne' grp h'
      · simp only [chunkCore]
        rw [if_pos hcond]
        have hmap0 : (chunkCore ts rest tn.text tn.startOffset
            (tn.startOffset + tn.text.length)).map TextChunk.text
            = p'.map (fun grp => joinSp (grp.map TextNode.text)) := by
          simpa [joinSp_singleton] using hmap'
        simp [htr, hmap0]
    · obtain ⟨p, hflat, hne', hmap'⟩ :=
        ih (g ++ [tn])
          (if (joinSp (g.map TextNode.text)).length = 0 then tn.startOffset else curStart)
          (tn.startOffset + tn.text.length) hfr'
          (by
            intro x hx
            rcases List.mem_append.mp hx with hx' | hx'
            · exact hg x hx'
            · rw [List.mem_singleton.mp hx']
              exact htn)
      have hcur : joinSp (g.map TextNode.text) ++
          (if 0 < (joinSp (g.map TextNode.text)).length then [' '] else []) ++ tn.text
          = joinSp ((g ++ [tn]).map TextNode.text) := by
        by_cases hgnil : g = []
        · subst hgnil
          simp [joinSp]
        · have hmap : ∀ t ∈ g.map TextNode.text, t ≠ [] ∧ noEdgeWs t = true := by
            intro t ht
            obtain ⟨x, hx, rfl⟩ := List.mem_map.mp ht
            exact hg x hx
          have hmapne : g.map TextNode.text ≠ [] := by
            intro hc
            exact hgnil (List.map_eq_nil_iff.mp hc)
          obtain ⟨hJne, _⟩ := joinSp_good _ hmapne hmap
          rw [if_pos (List.length_pos.mpr hJne)]
          rw [List.map_append, List.map_singleton,
            joinSp_append (g.map TextNode.text) [tn.text] hmapne (by simp)]
          simp [List.append_assoc, joinSp_singleton]
      refine ⟨p, ?_, hne', ?_⟩
      · rw [hflat]
        simp
      · simp only [chunkCore]
        rw [if_neg hcond, hcur]
        exact hmap'

/-- C7: for non-empty fragments with non-empty, whitespace-trimmed texts
and a positive target size, the chunks of `chunkText` partition the
fragment list into consecutive non-empty groups — each chunk's text is the
single-space join of its group's texts (so no fragment is ever split and
each fragment lands in exactly one chunk), and the single-space join of all
chunk texts equals the single-space join of all fragment texts. -/
theorem chunkText_no_fragment_split (frags : List TextNode) (targetSize : Int)
    (_hts : 0 < targetSize) (hne : frags ≠ [])
    (hfr : ∀ tn ∈ frags, tn.text ≠ [] ∧ noEdgeWs tn.text = true) :
    ∃ partition : List (List TextNode),
      partition.flatten = frags ∧
      partition ≠ [] ∧
      (∀ grp ∈ partition, grp ≠ []) ∧
      (chunkText frags targetSize).map TextChunk.text
        = partition.map (fun grp => joinSp (grp.map TextNode.text)) ∧
      joinSp ((chunkText frags targetSize).map TextChunk.text)
        = joinSp (frags.map TextNode.text) := by
  obtain ⟨p, hflat, hgrp, hmap⟩ := chunkCore_partition targetSize frags [] 0 0 hfr (by simp)
  have hmap2 : (chunkText frags targetSize).map TextChunk.text
      = p.map (fun grp => joinSp (grp.map TextNode.text)) := by
    simpa [chunkText] using hmap
  have hpne : p ≠ [] := by
    intro hc
    subst hc
    simp only [List.flatten_nil, List.nil_append] at hflat
    exact hne hflat.symm
  refine ⟨p, by simpa using hflat, hpne, hgrp, hmap2, ?_⟩
  rw [hmap2]
  have hcomp : p.map (fun grp => joinSp (grp.map TextNode.text))
      = (p.map (fun grp => grp.map TextNode.text)).map joinSp := by
    rw [List.map_map]
    rfl
  have hgrp2 : ∀ gg ∈ p.map (fun grp => grp.map TextNode.text), gg ≠ [] := by
    intro gg hgg
    obtain ⟨grp, hgrpmem, rfl⟩ := List.mem_map.mp hgg
    intro hc
    exact hgrp grp hgrpmem (List.map_eq_nil_iff.mp hc)
  rw [hcomp, joinSp_flatten _ hgrp2, ← List.map_flatten, hflat]
  simp



theorem chunkText_no_fragment_split_witness :
    (0 : Int) < 8 ∧ ([⟨"hello".data, 0⟩, ⟨"world".data, 6⟩] : List TextNode) ≠ [] ∧
    ∃ partition : List (List TextNode),
      partition.flatten = [⟨"hello".data, 0⟩, ⟨"world".data, 6⟩] ∧
      partition ≠ [] ∧
      (∀ grp ∈ partition, grp ≠ []) ∧
      (chunkText [⟨"hello".data, 0⟩, ⟨"world".data, 6⟩] 8).map TextChunk.text
        = partition.map (fun grp => joinSp (grp.map TextNode.text)) ∧
      joinSp ((chunkText [⟨"hello".data, 0⟩, ⟨"world".data, 6⟩] 8).map TextChunk.text)
        = joinSp ([⟨"hello".data, 0⟩, ⟨"world".data, 6⟩].map TextNode.text) :=
  ⟨by decide, by decide,
   chunkText_no_fragment_split _ 8 (by decide) (by decide) (by decide)⟩

end SemanticFind
